import Mathlib

/-!
Verification of the directory subsystem of the RAM filesystem
(axfs_ramfs, file dir.rs): a shallow embedding of the directory node
tree and its operations, together with theorems checking the
natural-language specification against the code.

Modelling decisions:
* Path and name strings are lists of characters ordered by code point,
  matching the byte-wise order the B-tree map uses on its keys.
* The reference-counted heap of nodes is an association list from
  numeric node identifiers to node data; weak references (parent and
  self references) are plain optional identifiers, and upgrading a weak
  reference succeeds exactly when the identifier is still in the heap.
* A directory's child table (a B-tree map in the code) is a
  key-sorted association list; insertion keeps it sorted, which is the
  map's behaviour.
-/

namespace RamFs

/-- Shorthand for a path or name: a list of characters. -/
abbrev Name := List Char

/-- Error codes of the VFS layer used by dir.rs. -/
inductive VfsError where
  | notFound
  | alreadyExists
  | directoryNotEmpty
  | unsupported
  | invalidInput
  deriving DecidableEq, Repr

/-- Node types of the VFS layer; the RAM fs only produces files and
directories, the rest exist so that the Unsupported branch of
create_node is faithful. -/
inductive VfsNodeType where
  | file
  | dir
  | symLink
  | charDevice
  | blockDevice
  | fifo
  | socket
  deriving DecidableEq, Repr

/-- Result of an operation returning Rust's VfsResult, i.e. Result with
a unit payload. -/
inductive VfsRes where
  | ok
  | error (e : VfsError)
  deriving DecidableEq, Repr

instance {e a : Type} [DecidableEq e] [DecidableEq a] : DecidableEq (Except e a) := fun x y =>
  match x, y with
  | .ok x1, .ok y1 =>
    if h : x1 = y1 then isTrue (by rw [h])
    else isFalse (by intro hc; injection hc; contradiction)
  | .error x1, .error y1 =>
    if h : x1 = y1 then isTrue (by rw [h])
    else isFalse (by intro hc; injection hc; contradiction)
  | .ok _, .error _ => isFalse Except.noConfusion
  | .error _, .ok _ => isFalse Except.noConfusion

/-- Directory entry as filled by read_dir. -/
structure VfsDirEntry where
  name : Name
  ty : VfsNodeType
  deriving DecidableEq, Repr

/-- Strict lexicographic order on names by character code point, the
order the B-tree map keeps its keys in. -/
def nameLt : Name → Name → Bool
  | [], [] => false
  | [], _ :: _ => true
  | _ :: _, [] => false
  | a :: as, b :: bs =>
    if a < b then true
    else if b < a then false
    else nameLt as bs

theorem nameLt_irrefl (a : Name) : nameLt a a = false := by
  induction a with
  | nil => rfl
  | cons c cs ih => simp [nameLt, ih]

theorem nameLt_trans :
    ∀ {a b c : Name}, nameLt a b = true → nameLt b c = true → nameLt a c = true := by
  intro a
  induction a with
  | nil =>
    intro b c hab hbc
    cases b with
    | nil => simp [nameLt] at hab
    | cons x xs =>
      cases c with
      | nil => simp [nameLt] at hbc
      | cons y ys => simp [nameLt]
  | cons x xs ih =>
    intro b c hab hbc
    cases b with
    | nil => simp [nameLt] at hab
    | cons y ys =>
      cases c with
      | nil => simp [nameLt] at hbc
      | cons z zs =>
        simp only [nameLt] at hab hbc ⊢
        rcases lt_trichotomy x y with hxy | hxy | hxy
        · rcases lt_trichotomy y z with hyz | hyz | hyz
          · rw [if_pos (lt_trans hxy hyz)]
          · subst hyz
            rw [if_pos hxy]
          · rw [if_neg (not_lt.mpr (le_of_lt hyz)), if_pos hyz] at hbc
            exact Bool.noConfusion hbc
        · subst hxy
          rw [if_neg (lt_irrefl x), if_neg (lt_irrefl x)] at hab
          rcases lt_trichotomy x z with hxz | hxz | hxz
          · rw [if_pos hxz]
          · subst hxz
            rw [if_neg (lt_irrefl x), if_neg (lt_irrefl x)] at hbc ⊢
            exact ih hab hbc
          · rw [if_neg (not_lt.mpr (le_of_lt hxz)), if_pos hxz] at hbc
            exact Bool.noConfusion hbc
        · rw [if_neg (not_lt.mpr (le_of_lt hxy)), if_pos hxy] at hab
          exact Bool.noConfusion hab

theorem nameLt_asymm {a b : Name} (h : nameLt a b = true) : nameLt b a = false := by
  by_contra hc
  have hba : nameLt b a = true := by
    cases hcase : nameLt b a with
    | false => exact absurd hcase hc
    | true => rfl
  have := nameLt_trans h hba
  rw [nameLt_irrefl] at this
  exact Bool.false_ne_true this

theorem nameLt_connex :
    ∀ {a b : Name}, nameLt a b = false → nameLt b a = false → a = b := by
  intro a
  induction a with
  | nil =>
    intro b hab _
    cases b with
    | nil => rfl
    | cons y ys => simp [nameLt] at hab
  | cons x xs ih =>
    intro b hab hba
    cases b with
    | nil => simp [nameLt] at hba
    | cons y ys =>
      simp only [nameLt] at hab hba
      rcases lt_trichotomy x y with hxy | hxy | hxy
      · rw [if_pos hxy] at hab
        exact Bool.noConfusion hab
      · subst hxy
        rw [if_neg (lt_irrefl x), if_neg (lt_irrefl x)] at hab hba
        rw [ih hab hba]
      · rw [if_pos hxy] at hba
        exact Bool.noConfusion hba

theorem nameLt_of_ne {a b : Name} (h : a ≠ b) :
    nameLt a b = true ∨ nameLt b a = true := by
  cases hab : nameLt a b with
  | true => exact Or.inl rfl
  | false =>
    cases hba : nameLt b a with
    | true => exact Or.inr rfl
    | false => exact absurd (nameLt_connex hab hba) h

theorem ne_of_nameLt {a b : Name} (h : nameLt a b = true) : a ≠ b := by
  intro he
  subst he
  rw [nameLt_irrefl] at h
  exact Bool.false_ne_true h

/-- Lookup in a child table (BTreeMap::get on the name key). -/
def lookupKey (k : Name) : List (Name × Nat) → Option Nat
  | [] => none
  | (k1, v) :: rest => if k = k1 then some v else lookupKey k rest

/-- Insertion into a key-sorted child table (BTreeMap::insert): places
the new binding before the first strictly larger key and replaces an
equal key. -/
def insertSorted (k : Name) (v : Nat) : List (Name × Nat) → List (Name × Nat)
  | [] => [(k, v)]
  | (k1, v1) :: rest =>
    if nameLt k k1 then (k, v) :: (k1, v1) :: rest
    else if k = k1 then (k, v) :: rest
    else (k1, v1) :: insertSorted k v rest

/-- Removal from a child table (BTreeMap::remove). -/
def removeKey (k : Name) : List (Name × Nat) → List (Name × Nat)
  | [] => []
  | (k1, v1) :: rest => if k = k1 then rest else (k1, v1) :: removeKey k rest

/-- The child table invariant of the B-tree map: entries strictly
sorted by key. -/
def tableSorted (ch : List (Name × Nat)) : Prop :=
  ch.Pairwise (fun a b => nameLt a.1 b.1 = true)

instance (ch : List (Name × Nat)) : Decidable (tableSorted ch) :=
  List.instDecidablePairwise ch

theorem mem_insertSorted {k : Name} {v : Nat} {l : List (Name × Nat)} :
    ∀ {e}, e ∈ insertSorted k v l → e = (k, v) ∨ e ∈ l := by
  induction l with
  | nil =>
    intro e he
    simp [insertSorted] at he
    exact Or.inl he
  | cons hd tl ih =>
    intro e he
    obtain ⟨k1, v1⟩ := hd
    simp only [insertSorted] at he
    by_cases h1 : nameLt k k1
    · rw [if_pos h1] at he
      rw [List.mem_cons] at he
      rcases he with he | he
      · exact Or.inl he
      · exact Or.inr he
    · rw [if_neg h1] at he
      by_cases h2 : k = k1
      · rw [if_pos h2] at he
        rw [List.mem_cons] at he
        rcases he with he | he
        · exact Or.inl he
        · exact Or.inr (List.mem_cons_of_mem _ he)
      · rw [if_neg h2] at he
        rw [List.mem_cons] at he
        rcases he with he | he
        · exact Or.inr (by simp [he])
        · rcases ih he with h | h
          · exact Or.inl h
          · exact Or.inr (List.mem_cons_of_mem _ h)

theorem tableSorted_insertSorted {k : Name} {v : Nat} {l : List (Name × Nat)}
    (hs : tableSorted l) : tableSorted (insertSorted k v l) := by
  induction l with
  | nil => simp [insertSorted, tableSorted]
  | cons hd tl ih =>
    obtain ⟨k1, v1⟩ := hd
    rw [tableSorted, List.pairwise_cons] at hs
    obtain ⟨hhd, htl⟩ := hs
    simp only [insertSorted]
    by_cases h1 : nameLt k k1
    · rw [if_pos h1]
      rw [tableSorted, List.pairwise_cons]
      constructor
      · intro e he
        rw [List.mem_cons] at he
        rcases he with he | he
        · simp [he, h1]
        · exact nameLt_trans h1 (hhd e he)
      · exact List.pairwise_cons.mpr ⟨hhd, htl⟩
    · rw [if_neg h1]
      by_cases h2 : k = k1
      · rw [if_pos h2]
        subst h2
        rw [tableSorted, List.pairwise_cons]
        exact ⟨hhd, htl⟩
      · rw [if_neg h2]
        rw [tableSorted, List.pairwise_cons]
        constructor
        · intro e he
          rcases mem_insertSorted he with h | h
          · subst h
            rcases nameLt_of_ne h2 with h | h
            · exact absurd h h1
            · exact h
          · exact hhd e h
        · exact ih htl

theorem removeKey_sublist (k : Name) (l : List (Name × Nat)) :
    (removeKey k l).Sublist l := by
  induction l with
  | nil => simp [removeKey]
  | cons hd tl ih =>
    obtain ⟨k1, v1⟩ := hd
    simp only [removeKey]
    by_cases h : k = k1
    · rw [if_pos h]
      exact List.sublist_cons_self _ _
    · rw [if_neg h]
      exact List.Sublist.cons₂ _ ih

theorem tableSorted_removeKey {k : Name} {l : List (Name × Nat)}
    (hs : tableSorted l) : tableSorted (removeKey k l) :=
  List.Pairwise.sublist (removeKey_sublist k l) hs

theorem lookupKey_insertSorted_self (k : Name) (v : Nat) (l : List (Name × Nat)) :
    lookupKey k (insertSorted k v l) = some v := by
  induction l with
  | nil => simp [insertSorted, lookupKey]
  | cons hd tl ih =>
    obtain ⟨k1, v1⟩ := hd
    simp only [insertSorted]
    by_cases h1 : nameLt k k1
    · rw [if_pos h1]
      simp [lookupKey]
    · rw [if_neg h1]
      by_cases h2 : k = k1
      · rw [if_pos h2]
        simp [lookupKey]
      · rw [if_neg h2]
        simp [lookupKey, h2, ih]

theorem lookupKey_insertSorted_other {k k1 : Name} (v : Nat) (l : List (Name × Nat))
    (hne : k1 ≠ k) : lookupKey k1 (insertSorted k v l) = lookupKey k1 l := by
  induction l with
  | nil => simp [insertSorted, lookupKey, hne]
  | cons hd tl ih =>
    obtain ⟨k2, v2⟩ := hd
    simp only [insertSorted]
    by_cases h1 : nameLt k k2
    · rw [if_pos h1]
      simp [lookupKey, hne]
    · rw [if_neg h1]
      by_cases h2 : k = k2
      · rw [if_pos h2]
        subst h2
        simp [lookupKey, hne]
      · rw [if_neg h2]
        simp only [lookupKey]
        by_cases h3 : k1 = k2
        · simp [h3]
        · simp [h3, ih]

theorem lookupKey_eq_none {k1 : Name} :
    ∀ {l : List (Name × Nat)}, (∀ e ∈ l, nameLt k1 e.1 = true) →
      lookupKey k1 l = none := by
  intro l
  induction l with
  | nil =>
    intro _
    rfl
  | cons hd tl ih =>
    intro hall
    obtain ⟨k2, v2⟩ := hd
    simp only [lookupKey]
    rw [if_neg (ne_of_nameLt (hall (k2, v2) (by simp)))]
    exact ih fun e he => hall e (List.mem_cons_of_mem _ he)

theorem head_notMem_keys {k1 : Name} {v1 : Nat} {l : List (Name × Nat)}
    (hs : tableSorted ((k1, v1) :: l)) : lookupKey k1 l = none := by
  rw [tableSorted, List.pairwise_cons] at hs
  exact lookupKey_eq_none hs.1

theorem lookupKey_removeKey_self {k : Name} {l : List (Name × Nat)}
    (hs : tableSorted l) : lookupKey k (removeKey k l) = none := by
  induction l with
  | nil => rfl
  | cons hd tl ih =>
    obtain ⟨k1, v1⟩ := hd
    simp only [removeKey]
    by_cases h : k = k1
    · rw [if_pos h]
      subst h
      exact head_notMem_keys hs
    · rw [if_neg h]
      simp only [lookupKey, if_neg h]
      rw [tableSorted, List.pairwise_cons] at hs
      exact ih hs.2

theorem lookupKey_removeKey_other {k k1 : Name} {l : List (Name × Nat)}
    (hne : k1 ≠ k) : lookupKey k1 (removeKey k l) = lookupKey k1 l := by
  induction l with
  | nil => rfl
  | cons hd tl ih =>
    obtain ⟨k2, v2⟩ := hd
    simp only [removeKey, lookupKey]
    by_cases h : k = k2
    · rw [if_pos h]
      subst h
      rw [if_neg hne]
    · rw [if_neg h]
      simp only [lookupKey]
      by_cases h2 : k1 = k2
      · simp [h2]
      · simp [h2, ih]

theorem nameLt_of_lookupKey_below {k k1 : Name} :
    ∀ {l : List (Name × Nat)}, (∀ e ∈ l, nameLt k1 e.1 = true) →
      lookupKey k l ≠ none → nameLt k1 k = true := by
  intro l
  induction l with
  | nil =>
    intro _ hmem
    exact absurd rfl hmem
  | cons hd tl ih =>
    intro hall hmem
    obtain ⟨k2, v2⟩ := hd
    by_cases h2 : k = k2
    · subst h2
      exact hall (k, v2) (by simp)
    · refine ih (fun e he => hall e (List.mem_cons_of_mem _ he)) ?_
      simpa [lookupKey, h2] using hmem

theorem insertSorted_removeKey_self {k : Name} {v : Nat} {l : List (Name × Nat)}
    (hs : tableSorted l) (hk : lookupKey k l = some v) :
    insertSorted k v (removeKey k l) = l := by
  induction l with
  | nil => simp [lookupKey] at hk
  | cons hd tl ih =>
    obtain ⟨k1, v1⟩ := hd
    simp only [lookupKey] at hk
    simp only [removeKey]
    by_cases h : k = k1
    · rw [if_pos h]
      rw [if_pos h] at hk
      subst h
      injection hk with hv
      subst hv
      cases htl : tl with
      | nil => simp [insertSorted]
      | cons hd2 tl2 =>
        obtain ⟨k2, v2⟩ := hd2
        rw [tableSorted, htl, List.pairwise_cons] at hs
        have hlt := hs.1 (k2, v2) (by simp)
        simp only [insertSorted]
        rw [if_pos hlt]
    · rw [if_neg h]
      rw [if_neg h] at hk
      rw [tableSorted, List.pairwise_cons] at hs
      simp only [insertSorted]
      have hk1k : ¬ nameLt k k1 = true := by
        intro hlt
        have hmem : lookupKey k tl ≠ none := by
          rw [hk]
          exact Option.noConfusion
        have hbelow : nameLt k1 k = true := nameLt_of_lookupKey_below hs.1 hmem
        have := nameLt_trans hlt hbelow
        rw [nameLt_irrefl] at this
        exact Bool.noConfusion this
      rw [if_neg hk1k, if_neg h]
      rw [ih hs.2 hk]

/-- Data stored in one node of the RAM filesystem: a FileNode, or a
DirNode with its weak parent reference and its child table mapping
names to node identifiers. -/
inductive NodeData where
  | file
  | dir (parent : Option Nat) (children : List (Name × Nat))
  deriving DecidableEq, Repr

/-- The reference-counted heap of nodes: identifiers bound to node
data, plus the next fresh identifier. -/
structure Fs where
  nodes : List (Nat × NodeData)
  nextId : Nat
  deriving DecidableEq, Repr

/-- Lookup of a node by identifier (upgrading a weak or cloning a
strong reference). -/
def lookupNode (i : Nat) : List (Nat × NodeData) → Option NodeData
  | [] => none
  | (j, d) :: rest => if i = j then some d else lookupNode i rest

/-- Replacement of the data of an existing node (a mutation through a
lock on that node). -/
def updateNode (i : Nat) (d : NodeData) : List (Nat × NodeData) → List (Nat × NodeData)
  | [] => []
  | (j, e) :: rest => if i = j then (j, d) :: rest else (j, e) :: updateNode i d rest

def getNode (fs : Fs) (i : Nat) : Option NodeData :=
  lookupNode i fs.nodes

def setNode (fs : Fs) (i : Nat) (d : NodeData) : Fs :=
  { fs with nodes := updateNode i d fs.nodes }

/-- Allocation of a fresh node (Arc::new / Arc::new_cyclic). -/
def addNode (fs : Fs) (d : NodeData) : Fs :=
  { nodes := fs.nodes ++ [(fs.nextId, d)], nextId := fs.nextId + 1 }

theorem lookupNode_updateNode_other {i j : Nat} (d : NodeData) (h : j ≠ i) :
    ∀ l : List (Nat × NodeData), lookupNode j (updateNode i d l) = lookupNode j l := by
  intro l
  induction l with
  | nil => rfl
  | cons hd tl ih =>
    obtain ⟨m, e⟩ := hd
    simp only [updateNode]
    by_cases h1 : i = m
    · rw [if_pos h1]
      subst h1
      simp only [lookupNode]
      rw [if_neg h, if_neg h]
    · rw [if_neg h1]
      simp only [lookupNode]
      by_cases h2 : j = m
      · simp [h2]
      · simp [h2, ih]

theorem lookupNode_updateNode_self {i : Nat} {d0 : NodeData} (d : NodeData) :
    ∀ {l : List (Nat × NodeData)}, lookupNode i l = some d0 →
      lookupNode i (updateNode i d l) = some d := by
  intro l
  induction l with
  | nil =>
    intro h
    exact Option.noConfusion h
  | cons hd tl ih =>
    intro h
    obtain ⟨m, e⟩ := hd
    simp only [updateNode]
    by_cases h1 : i = m
    · rw [if_pos h1]
      simp [lookupNode, h1]
    · rw [if_neg h1]
      simp only [lookupNode, if_neg h1]
      simp only [lookupNode, if_neg h1] at h
      exact ih h

theorem updateNode_same {i : Nat} {d : NodeData} :
    ∀ {l : List (Nat × NodeData)}, lookupNode i l = some d →
      updateNode i d l = l := by
  intro l
  induction l with
  | nil =>
    intro _
    rfl
  | cons hd tl ih =>
    intro h
    obtain ⟨m, e⟩ := hd
    simp only [updateNode]
    by_cases h1 : i = m
    · rw [if_pos h1]
      simp only [lookupNode, if_pos h1] at h
      injection h with h
      rw [h]
    · rw [if_neg h1]
      simp only [lookupNode, if_neg h1] at h
      rw [ih h]

theorem getNode_setNode_other (fs : Fs) (i j : Nat) (d : NodeData) (h : j ≠ i) :
    getNode (setNode fs i d) j = getNode fs j :=
  lookupNode_updateNode_other d h fs.nodes

theorem getNode_setNode_self (fs : Fs) (i : Nat) (d d0 : NodeData)
    (h : getNode fs i = some d0) : getNode (setNode fs i d) i = some d :=
  lookupNode_updateNode_self d h

theorem setNode_same (fs : Fs) (i : Nat) (d : NodeData)
    (h : getNode fs i = some d) : setNode fs i d = fs := by
  show { fs with nodes := updateNode i d fs.nodes } = fs
  rw [updateNode_same h]

/-! ### Path parser (split_path and split_parent_name in dir.rs) -/

/-- Removal of leading slash characters (trim_start_matches on a '/'
pattern). -/
def trimSlashes : Name → Name
  | [] => []
  | c :: rest => if c = '/' then trimSlashes rest else c :: rest

/-- Split at the first slash: the component before it and, when a
slash exists, the remainder after it. -/
def breakSlash : Name → Name × Option Name
  | [] => ([], none)
  | c :: rest =>
    if c = '/' then ([], some rest)
    else ((c :: (breakSlash rest).1), (breakSlash rest).2)

/-- The split_path function of dir.rs: strip leading slashes, then
split off the first component. -/
def split_path (path : Name) : Name × Option Name :=
  breakSlash (trimSlashes path)

theorem trimSlashes_length (l : Name) : (trimSlashes l).length ≤ l.length := by
  induction l with
  | nil => simp [trimSlashes]
  | cons c rest ih =>
    by_cases h : c = '/'
    · simp only [trimSlashes, if_pos h]
      exact Nat.le_succ_of_le ih
    · simp [trimSlashes, if_neg h]

theorem breakSlash_rest_length :
    ∀ {l r : Name}, (breakSlash l).2 = some r → r.length < l.length := by
  intro l
  induction l with
  | nil =>
    intro r h
    exact Option.noConfusion h
  | cons c rest ih =>
    intro r h
    simp only [breakSlash] at h
    by_cases hc : c = '/'
    · rw [if_pos hc] at h
      injection h with h
      subst h
      simp
    · rw [if_neg hc] at h
      exact Nat.lt_succ_of_lt (ih h)

theorem split_path_rest_length {path r : Name}
    (h : (split_path path).2 = some r) : r.length < path.length :=
  Nat.lt_of_lt_of_le (breakSlash_rest_length h) (trimSlashes_length path)

/-- Split at the last slash: everything before it and everything after
it, or none when the input has no slash (rfind in dir.rs). -/
def breakLastSlash : Name → Option (Name × Name)
  | [] => none
  | c :: rest =>
    match breakLastSlash rest with
    | some (p, n) => some (c :: p, n)
    | none => if c = '/' then some ([], rest) else none

/-- The split_parent_name function of dir.rs: strip leading slashes;
with a slash present, parent is everything before the last one (or the
root path when that is empty) and the name everything after it;
otherwise parent is the current directory and the name the whole
remainder.  The Rust function returns a Result but both branches
produce Ok. -/
def split_parent_name (path : Name) : Except VfsError (Name × Name) :=
  match breakLastSlash (trimSlashes path) with
  | some (parent, n) => .ok (if parent = [] then ['/'] else parent, n)
  | none => .ok (['.'], trimSlashes path)

/-! ### Directory node operations (DirNode in dir.rs)

The file node's source is not part of the directory subsystem; per the
spec its behaviour under tree operations is its own concern, and the
shared capability interface rejects directory operations on it.  Every
branch below that dispatches on a file node models that rejection with
the Unsupported error; no theorem depends on the choice.  A dangling
identifier (a weak reference whose referent is gone) can never be the
receiver of an operation in the claims, and those branches return
NotFound. -/

/-- Resolution of one path component against a directory node, shared
by the walking code of lookup, create and remove: the empty name and
the dot resolve to the node itself, the double dot to the parent
(NotFound when absent), anything else through the child table
(NotFound when absent). -/
def resolveComp (selfId : Nat) (parent : Option Nat) (ch : List (Name × Nat))
    (n : Name) : Except VfsError Nat :=
  if n = [] ∨ n = ['.'] then .ok selfId
  else if n = ['.', '.'] then
    match parent with
    | none => .error .notFound
    | some p => .ok p
  else
    match lookupKey n ch with
    | none => .error .notFound
    | some c => .ok c

/-- The lookup method of DirNode: resolve the first component, then
recurse into the resolved node when a remainder exists. -/
def lookup (fs : Fs) (selfId : Nat) (path : Name) : Except VfsError Nat :=
  match getNode fs selfId with
  | none => .error .notFound
  | some .file => .error .unsupported
  | some (.dir parent ch) =>
    match resolveComp selfId parent ch (split_path path).1 with
    | .error e => .error e
    | .ok node =>
      match h : (split_path path).2 with
      | none => .ok node
      | some r => lookup fs node r
termination_by path.length
decreasing_by exact split_path_rest_length h

/-- The create_node method of DirNode: reject an existing name, then
allocate a node of the requested type (a directory records its parent)
and insert it; unrecognized types are Unsupported. -/
def create_node (fs : Fs) (selfId : Nat) (n : Name) (ty : VfsNodeType) : VfsRes × Fs :=
  match getNode fs selfId with
  | some (.dir parent ch) =>
    if (lookupKey n ch).isSome then (.error .alreadyExists, fs)
    else
      match ty with
      | .file =>
        (.ok, setNode (addNode fs .file) selfId
          (.dir parent (insertSorted n fs.nextId ch)))
      | .dir =>
        (.ok, setNode (addNode fs (.dir (some selfId) [])) selfId
          (.dir parent (insertSorted n fs.nextId ch)))
      | _ => (.error .unsupported, fs)
  | some .file => (.error .unsupported, fs)
  | none => (.error .notFound, fs)

/-- The remove_node method of DirNode: NotFound for an absent name; a
directory child with a non-empty table is protected by
DirectoryNotEmpty; otherwise the entry is removed. -/
def remove_node (fs : Fs) (selfId : Nat) (n : Name) : VfsRes × Fs :=
  match getNode fs selfId with
  | some (.dir parent ch) =>
    match lookupKey n ch with
    | none => (.error .notFound, fs)
    | some cid =>
      match getNode fs cid with
      | some (.dir _ cch) =>
        if cch = [] then (.ok, setNode fs selfId (.dir parent (removeKey n ch)))
        else (.error .directoryNotEmpty, fs)
      | _ => (.ok, setNode fs selfId (.dir parent (removeKey n ch)))
  | some .file => (.error .unsupported, fs)
  | none => (.error .notFound, fs)

/-- The rename_node method of DirNode: same-table key rename checking
the old name first, then the new one, then moving the binding. -/
def rename_node (fs : Fs) (selfId : Nat) (oldName newName : Name) : VfsRes × Fs :=
  match getNode fs selfId with
  | some (.dir parent ch) =>
    if (lookupKey oldName ch).isNone then (.error .notFound, fs)
    else if (lookupKey newName ch).isSome then (.error .alreadyExists, fs)
    else
      match lookupKey oldName ch with
      | some node =>
        (.ok, setNode fs selfId
          (.dir parent (insertSorted newName node (removeKey oldName ch))))
      | none => (.error .notFound, fs)
  | some .file => (.error .unsupported, fs)
  | none => (.error .notFound, fs)

/-- The create method of DirNode: walk all but the last component with
the shared resolution rule, then no-op on a trivial final name and
otherwise delegate to create_node. -/
def create (fs : Fs) (selfId : Nat) (path : Name) (ty : VfsNodeType) : VfsRes × Fs :=
  match getNode fs selfId with
  | none => (.error .notFound, fs)
  | some .file => (.error .unsupported, fs)
  | some (.dir parent ch) =>
    match h : (split_path path).2 with
    | some r =>
      match resolveComp selfId parent ch (split_path path).1 with
      | .error e => (.error e, fs)
      | .ok node => create fs node r ty
    | none =>
      if (split_path path).1 = [] ∨ (split_path path).1 = ['.']
          ∨ (split_path path).1 = ['.', '.'] then
        (.ok, fs)
      else create_node fs selfId (split_path path).1 ty
termination_by path.length
decreasing_by exact split_path_rest_length h

/-- The remove method of DirNode: walk all but the last component with
the shared resolution rule, reject a trivial final name with
InvalidInput, and otherwise delegate to remove_node. -/
def remove (fs : Fs) (selfId : Nat) (path : Name) : VfsRes × Fs :=
  match getNode fs selfId with
  | none => (.error .notFound, fs)
  | some .file => (.error .unsupported, fs)
  | some (.dir parent ch) =>
    match h : (split_path path).2 with
    | some r =>
      match resolveComp selfId parent ch (split_path path).1 with
      | .error e => (.error e, fs)
      | .ok node => remove fs node r
    | none =>
      if (split_path path).1 = [] ∨ (split_path path).1 = ['.']
          ∨ (split_path path).1 = ['.', '.'] then
        (.error .invalidInput, fs)
      else remove_node fs selfId (split_path path).1
termination_by path.length
decreasing_by exact split_path_rest_length h

/-- Normalization applied by rename to the old path: strip leading
slashes only. -/
def renameNormOld (p : Name) : Name :=
  trimSlashes p

/-- Removal of the mount point's own path from the front of a path, as
rename does with strip_prefix of the tmp mount path. -/
def stripTmp (p : Name) : Name :=
  if p.take 4 = ['t', 'm', 'p', '/'] then p.drop 4 else p

/-- Normalization applied by rename to the new path: strip leading
slashes, then the tmp mount path. -/
def renameNormNew (p : Name) : Name :=
  stripTmp (trimSlashes p)

/-- The body of rename after path normalization and splitting: resolve
both parent paths from the root, require both to be directory nodes,
and dispatch on parent identity; the cross-directory branch removes
the source entry first and reinserts it when the destination name is
taken. -/
def renameResolved (fs : Fs) (rootId : Nat) (opp oldName npp newName : Name) :
    VfsRes × Fs :=
  match lookup fs rootId opp with
  | .error e => (.error e, fs)
  | .ok p1 =>
    match getNode fs p1 with
    | some (.dir a1 ch1) =>
      match lookup fs rootId npp with
      | .error e => (.error e, fs)
      | .ok p2 =>
        match getNode fs p2 with
        | some (.dir a2 ch2) =>
          if p1 = p2 then rename_node fs p1 oldName newName
          else
            match lookupKey oldName ch1 with
            | none => (.error .notFound, fs)
            | some node =>
              if (lookupKey newName ch2).isSome then
                (.error .alreadyExists,
                  setNode fs p1 (.dir a1 (insertSorted oldName node (removeKey oldName ch1))))
              else
                (.ok,
                  setNode (setNode fs p1 (.dir a1 (removeKey oldName ch1)))
                    p2 (.dir a2 (insertSorted newName node ch2)))
        | _ => (.error .invalidInput, fs)
    | _ => (.error .invalidInput, fs)

/-- The rename method of DirNode: normalize both paths, split each
into parent path and leaf name, and run the resolved-parent protocol
from the node itself (the tree root). -/
def rename (fs : Fs) (selfId : Nat) (oldPath newPath : Name) : VfsRes × Fs :=
  match getNode fs selfId with
  | some (.dir _ _) =>
    match split_parent_name (renameNormOld oldPath),
        split_parent_name (renameNormNew newPath) with
    | .ok (opp, oldName), .ok (npp, newName) =>
      renameResolved fs selfId opp oldName npp newName
    | .error e, _ => (.error e, fs)
    | _, .error e => (.error e, fs)
  | some .file => (.error .unsupported, fs)
  | none => (.error .notFound, fs)

/-- Node type reported by get_attr, used by read_dir for the entry it
fills in. -/
def nodeTypeOf (fs : Fs) (i : Nat) : VfsNodeType :=
  match getNode fs i with
  | some .file => .file
  | some (.dir _ _) => .dir
  | none => .file

/-- The child iterator of read_dir as a list of directory entries. -/
def dirEntsOf (fs : Fs) (ch : List (Name × Nat)) : List VfsDirEntry :=
  ch.map fun e => ⟨e.1, nodeTypeOf fs e.2⟩

/-- The filling loop of read_dir: slot positions 0 and 1 synthesize the
dot and double-dot entries, later positions consume the child
iterator, stopping early when it is exhausted. -/
def rdLoop (it : List VfsDirEntry) (pos slots : Nat) : List VfsDirEntry :=
  match slots with
  | 0 => []
  | s + 1 =>
    match pos with
    | 0 => ⟨['.'], .dir⟩ :: rdLoop it 1 s
    | 1 => ⟨['.', '.'], .dir⟩ :: rdLoop it 2 s
    | _ =>
      match it with
      | [] => []
      | e :: rest => e :: rdLoop rest (pos + 1) s

/-- The read_dir method of DirNode: skip max(start,2)-2 children, then
fill the output slots from the virtual position start; the result
lists the entries filled (its length is the returned count). -/
def read_dir (fs : Fs) (selfId : Nat) (start cap : Nat) : Option (List VfsDirEntry) :=
  match getNode fs selfId with
  | some (.dir _ ch) =>
    some (rdLoop ((dirEntsOf fs ch).drop (max start 2 - 2)) start cap)
  | _ => none

/-! ### Well-formedness of the heap -/

/-- Sortedness of a node's child table (the B-tree map invariant). -/
def dirSorted : NodeData → Prop
  | .file => True
  | .dir _ ch => tableSorted ch

instance : (d : NodeData) → Decidable (dirSorted d)
  | .file => isTrue trivial
  | .dir _ ch => inferInstanceAs (Decidable (tableSorted ch))

/-- Well-formedness: node identifiers are unique and below the fresh
counter, and every child table is strictly sorted by name. -/
def WF (fs : Fs) : Prop :=
  (fs.nodes.map Prod.fst).Nodup ∧
  (∀ p ∈ fs.nodes, p.1 < fs.nextId) ∧
  (∀ p ∈ fs.nodes, dirSorted p.2)

instance (fs : Fs) : Decidable (WF fs) :=
  inferInstanceAs (Decidable ((fs.nodes.map Prod.fst).Nodup ∧
    (∀ p ∈ fs.nodes, p.1 < fs.nextId) ∧ (∀ p ∈ fs.nodes, dirSorted p.2)))

theorem updateNode_map_fst (i : Nat) (d : NodeData) :
    ∀ l : List (Nat × NodeData), (updateNode i d l).map Prod.fst = l.map Prod.fst := by
  intro l
  induction l with
  | nil => rfl
  | cons hd tl ih =>
    obtain ⟨m, e⟩ := hd
    simp only [updateNode]
    by_cases h1 : i = m
    · rw [if_pos h1]
      simp
    · rw [if_neg h1]
      simp [ih]

theorem mem_updateNode {i : Nat} {d : NodeData} :
    ∀ {p : Nat × NodeData} {l : List (Nat × NodeData)},
      p ∈ updateNode i d l → p ∈ l ∨ p.2 = d := by
  intro p l
  induction l with
  | nil =>
    intro hp
    simp [updateNode] at hp
  | cons hd tl ih =>
    intro hp
    obtain ⟨m, e⟩ := hd
    simp only [updateNode] at hp
    by_cases h1 : i = m
    · rw [if_pos h1] at hp
      rw [List.mem_cons] at hp
      rcases hp with hp | hp
      · exact Or.inr (by rw [hp])
      · exact Or.inl (List.mem_cons_of_mem _ hp)
    · rw [if_neg h1] at hp
      rw [List.mem_cons] at hp
      rcases hp with hp | hp
      · exact Or.inl (by simp [hp])
      · rcases ih hp with h | h
        · exact Or.inl (List.mem_cons_of_mem _ h)
        · exact Or.inr h

theorem WF_setNode {fs : Fs} {i : Nat} {d : NodeData}
    (h : WF fs) (hd : dirSorted d) : WF (setNode fs i d) := by
  obtain ⟨hn, hb, hs⟩ := h
  refine ⟨?_, ?_, ?_⟩
  · show ((updateNode i d fs.nodes).map Prod.fst).Nodup
    rw [updateNode_map_fst]
    exact hn
  · intro p hp
    have h1 : p.1 ∈ (updateNode i d fs.nodes).map Prod.fst :=
      List.mem_map_of_mem Prod.fst hp
    rw [updateNode_map_fst] at h1
    obtain ⟨q, hq, hfst⟩ := List.mem_map.mp h1
    show p.1 < fs.nextId
    rw [← hfst]
    exact hb q hq
  · intro p hp
    rcases mem_updateNode hp with h1 | h1
    · exact hs p h1
    · rw [h1]
      exact hd

theorem WF_addNode {fs : Fs} {d : NodeData}
    (h : WF fs) (hd : dirSorted d) : WF (addNode fs d) := by
  obtain ⟨hn, hb, hs⟩ := h
  refine ⟨?_, ?_, ?_⟩
  · show ((fs.nodes ++ [(fs.nextId, d)]).map Prod.fst).Nodup
    rw [List.map_append]
    refine List.Nodup.append hn (by simp) ?_
    intro a ha hb2
    simp only [List.map_cons, List.map_nil, List.mem_singleton] at hb2
    obtain ⟨q, hq, hfst⟩ := List.mem_map.mp ha
    have := hb q hq
    omega
  · intro p hp
    simp only [addNode, List.mem_append] at hp
    rcases hp with hp | hp
    · have := hb p hp
      show p.1 < fs.nextId + 1
      omega
    · simp only [List.mem_singleton] at hp
      rw [hp]
      show fs.nextId < fs.nextId + 1
      omega
  · intro p hp
    simp only [addNode, List.mem_append] at hp
    rcases hp with hp | hp
    · exact hs p hp
    · simp only [List.mem_singleton] at hp
      rw [hp]
      exact hd

theorem lookupNode_mem {i : Nat} {d : NodeData} :
    ∀ {l : List (Nat × NodeData)}, lookupNode i l = some d → (i, d) ∈ l := by
  intro l
  induction l with
  | nil =>
    intro h
    exact Option.noConfusion h
  | cons hd tl ih =>
    intro h
    obtain ⟨m, e⟩ := hd
    simp only [lookupNode] at h
    by_cases h1 : i = m
    · rw [if_pos h1] at h
      injection h with h
      simp [h1, h]
    · rw [if_neg h1] at h
      exact List.mem_cons_of_mem _ (ih h)

theorem dirSorted_of_getNode {fs : Fs} {i : Nat} {d : NodeData}
    (h : WF fs) (hg : getNode fs i = some d) : dirSorted d :=
  h.2.2 (i, d) (lookupNode_mem hg)

theorem tableSorted_of_getNode {fs : Fs} {i : Nat} {parent : Option Nat}
    {ch : List (Name × Nat)} (h : WF fs)
    (hg : getNode fs i = some (.dir parent ch)) : tableSorted ch :=
  dirSorted_of_getNode h hg

theorem create_node_WF (fs : Fs) (selfId : Nat) (n : Name) (ty : VfsNodeType)
    (h : WF fs) : WF (create_node fs selfId n ty).2 := by
  cases hg : getNode fs selfId with
  | none => simp [create_node, hg, h]
  | some d =>
    cases d with
    | file => simp [create_node, hg, h]
    | dir parent ch =>
      have hch : tableSorted ch := tableSorted_of_getNode h hg
      have hins : dirSorted (.dir parent (insertSorted n fs.nextId ch)) :=
        tableSorted_insertSorted hch
      have hfile : dirSorted NodeData.file := trivial
      have hempty : dirSorted (.dir (some selfId) []) := by
        simp [dirSorted, tableSorted]
      by_cases he : (lookupKey n ch).isSome
      · simp [create_node, hg, he, h]
      · cases ty with
        | file =>
          simp only [create_node, hg, he, Bool.false_eq_true, if_neg]
          exact WF_setNode (WF_addNode h hfile) hins
        | dir =>
          simp only [create_node, hg, he, Bool.false_eq_true, if_neg]
          exact WF_setNode (WF_addNode h hempty) hins
        | symLink => simp [create_node, hg, he, h]
        | charDevice => simp [create_node, hg, he, h]
        | blockDevice => simp [create_node, hg, he, h]
        | fifo => simp [create_node, hg, he, h]
        | socket => simp [create_node, hg, he, h]

theorem remove_node_WF (fs : Fs) (selfId : Nat) (n : Name)
    (h : WF fs) : WF (remove_node fs selfId n).2 := by
  cases hg : getNode fs selfId with
  | none => simp [remove_node, hg, h]
  | some d =>
    cases d with
    | file => simp [remove_node, hg, h]
    | dir parent ch =>
      have hch : tableSorted ch := tableSorted_of_getNode h hg
      have hrem : dirSorted (.dir parent (removeKey n ch)) :=
        tableSorted_removeKey hch
      cases hc : lookupKey n ch with
      | none => simp [remove_node, hg, hc, h]
      | some cid =>
        cases hg2 : getNode fs cid with
        | none =>
          simp only [remove_node, hg, hc, hg2]
          exact WF_setNode h hrem
        | some d2 =>
          cases d2 with
          | file =>
            simp only [remove_node, hg, hc, hg2]
            exact WF_setNode h hrem
          | dir p2 cch =>
            by_cases hemp : cch = []
            · simp only [remove_node, hg, hc, hg2, hemp, if_pos]
              exact WF_setNode h hrem
            · simp [remove_node, hg, hc, hg2, hemp, h]

theorem rename_node_WF (fs : Fs) (selfId : Nat) (oldName newName : Name)
    (h : WF fs) : WF (rename_node fs selfId oldName newName).2 := by
  cases hg : getNode fs selfId with
  | none => simp [rename_node, hg, h]
  | some d =>
    cases d with
    | file => simp [rename_node, hg, h]
    | dir parent ch =>
      have hch : tableSorted ch := tableSorted_of_getNode h hg
      have hins : dirSorted
          (.dir parent (insertSorted newName
            ((lookupKey oldName ch).getD 0) (removeKey oldName ch))) :=
        tableSorted_insertSorted (tableSorted_removeKey hch)
      by_cases h1 : (lookupKey oldName ch).isNone
      · simp [rename_node, hg, h1, h]
      · by_cases h2 : (lookupKey newName ch).isSome
        · simp [rename_node, hg, h1, h2, h]
        · cases hc : lookupKey oldName ch with
          | none => simp [rename_node, hg, h1, h2, hc, h]
          | some node =>
            simp only [rename_node, hg, h1, h2, hc, Bool.false_eq_true, if_neg]
            exact WF_setNode h
              (tableSorted_insertSorted (tableSorted_removeKey hch))

theorem renameResolved_WF (fs : Fs) (rootId : Nat) (opp oldName npp newName : Name)
    (h : WF fs) : WF (renameResolved fs rootId opp oldName npp newName).2 := by
  cases h1 : lookup fs rootId opp with
  | error e => simp [renameResolved, h1, h]
  | ok p1 =>
    cases hg1 : getNode fs p1 with
    | none => simp [renameResolved, h1, hg1, h]
    | some d1 =>
      cases d1 with
      | file => simp [renameResolved, h1, hg1, h]
      | dir a1 ch1 =>
        cases h2 : lookup fs rootId npp with
        | error e => simp [renameResolved, h1, hg1, h2, h]
        | ok p2 =>
          cases hg2 : getNode fs p2 with
          | none => simp [renameResolved, h1, hg1, h2, hg2, h]
          | some d2 =>
            cases d2 with
            | file => simp [renameResolved, h1, hg1, h2, hg2, h]
            | dir a2 ch2 =>
              have hch1 : tableSorted ch1 := tableSorted_of_getNode h hg1
              have hch2 : tableSorted ch2 := tableSorted_of_getNode h hg2
              by_cases hpp : p1 = p2
              · simp only [renameResolved, h1, hg1, h2, hg2, hpp, if_pos]
                exact rename_node_WF fs p2 oldName newName h
              · cases hc : lookupKey oldName ch1 with
                | none => simp [renameResolved, h1, hg1, h2, hg2, hpp, hc, h]
                | some node =>
                  by_cases hn : (lookupKey newName ch2).isSome
                  · simp only [renameResolved, h1, hg1, h2, hg2, hpp, hc, hn,
                      if_pos, if_neg]
                    exact WF_setNode h
                      (tableSorted_insertSorted (tableSorted_removeKey hch1))
                  · simp only [renameResolved, h1, hg1, h2, hg2, hpp, hc, hn,
                      Bool.false_eq_true, if_neg]
                    exact WF_setNode
                      (WF_setNode h (tableSorted_removeKey hch1))
                      (tableSorted_insertSorted hch2)

theorem rename_WF (fs : Fs) (selfId : Nat) (oldPath newPath : Name)
    (h : WF fs) : WF (rename fs selfId oldPath newPath).2 := by
  cases hg : getNode fs selfId with
  | none => simp [rename, hg, h]
  | some d =>
    cases d with
    | file => simp [rename, hg, h]
    | dir parent ch =>
      cases h1 : split_parent_name (renameNormOld oldPath) with
      | error e =>
        cases hb : breakLastSlash (trimSlashes (renameNormOld oldPath)) with
        | none =>
          rw [split_parent_name, hb] at h1
          exact Except.noConfusion h1
        | some pr =>
          obtain ⟨a, b⟩ := pr
          rw [split_parent_name, hb] at h1
          exact Except.noConfusion h1
      | ok pr1 =>
        cases h2 : split_parent_name (renameNormNew newPath) with
        | error e =>
          cases hb : breakLastSlash (trimSlashes (renameNormNew newPath)) with
          | none =>
            rw [split_parent_name, hb] at h2
            exact Except.noConfusion h2
          | some pr =>
            obtain ⟨a, b⟩ := pr
            rw [split_parent_name, hb] at h2
            exact Except.noConfusion h2
        | ok pr2 =>
          obtain ⟨opp, oldName⟩ := pr1
          obtain ⟨npp, newName⟩ := pr2
          simp only [rename, hg, h1, h2]
          exact renameResolved_WF fs selfId opp oldName npp newName h

theorem lookup_err {fs : Fs} {selfId : Nat} {path : Name} {parent : Option Nat}
    {ch : List (Name × Nat)} {e : VfsError}
    (hg : getNode fs selfId = some (.dir parent ch))
    (hres : resolveComp selfId parent ch (split_path path).1 = .error e) :
    lookup fs selfId path = .error e := by
  rw [lookup.eq_def]
  simp only [hg, hres]

theorem lookup_term {fs : Fs} {selfId : Nat} {path : Name} {parent : Option Nat}
    {ch : List (Name × Nat)} {node : Nat}
    (hg : getNode fs selfId = some (.dir parent ch))
    (hres : resolveComp selfId parent ch (split_path path).1 = .ok node)
    (hr : (split_path path).2 = none) :
    lookup fs selfId path = .ok node := by
  rw [lookup.eq_def]
  simp only [hg, hres]
  split
  next heq => rfl
  next r2 heq =>
    rw [hr] at heq
    exact Option.noConfusion heq

theorem lookup_walk {fs : Fs} {selfId : Nat} {path : Name} {parent : Option Nat}
    {ch : List (Name × Nat)} {node : Nat} {r : Name}
    (hg : getNode fs selfId = some (.dir parent ch))
    (hres : resolveComp selfId parent ch (split_path path).1 = .ok node)
    (hr : (split_path path).2 = some r) :
    lookup fs selfId path = lookup fs node r := by
  rw [lookup.eq_def]
  simp only [hg, hres]
  split
  next heq =>
    rw [hr] at heq
    exact Option.noConfusion heq
  next r2 heq =>
    rw [hr] at heq
    injection heq with heq
    rw [heq]

theorem create_err {fs : Fs} {selfId : Nat} {path : Name} {ty : VfsNodeType}
    {parent : Option Nat} {ch : List (Name × Nat)} {e : VfsError} {r : Name}
    (hg : getNode fs selfId = some (.dir parent ch))
    (hr : (split_path path).2 = some r)
    (hres : resolveComp selfId parent ch (split_path path).1 = .error e) :
    create fs selfId path ty = (.error e, fs) := by
  rw [create.eq_def]
  simp only [hg]
  split
  next r2 heq =>
    rw [hres]
  next heq =>
    rw [hr] at heq
    exact Option.noConfusion heq

theorem create_walk {fs : Fs} {selfId : Nat} {path : Name} {ty : VfsNodeType}
    {parent : Option Nat} {ch : List (Name × Nat)} {node : Nat} {r : Name}
    (hg : getNode fs selfId = some (.dir parent ch))
    (hr : (split_path path).2 = some r)
    (hres : resolveComp selfId parent ch (split_path path).1 = .ok node) :
    create fs selfId path ty = create fs node r ty := by
  rw [create.eq_def]
  simp only [hg]
  split
  next r2 heq =>
    rw [hr] at heq
    injection heq with heq
    rw [heq, hres]
  next heq =>
    rw [hr] at heq
    exact Option.noConfusion heq

theorem create_term {fs : Fs} {selfId : Nat} {path : Name} {ty : VfsNodeType}
    {parent : Option Nat} {ch : List (Name × Nat)}
    (hg : getNode fs selfId = some (.dir parent ch))
    (hr : (split_path path).2 = none) :
    create fs selfId path ty =
      if (split_path path).1 = [] ∨ (split_path path).1 = ['.']
          ∨ (split_path path).1 = ['.', '.'] then
        (.ok, fs)
      else create_node fs selfId (split_path path).1 ty := by
  rw [create.eq_def]
  simp only [hg]
  split
  next r2 heq =>
    rw [hr] at heq
    exact Option.noConfusion heq
  next heq => rfl

theorem remove_err {fs : Fs} {selfId : Nat} {path : Name}
    {parent : Option Nat} {ch : List (Name × Nat)} {e : VfsError} {r : Name}
    (hg : getNode fs selfId = some (.dir parent ch))
    (hr : (split_path path).2 = some r)
    (hres : resolveComp selfId parent ch (split_path path).1 = .error e) :
    remove fs selfId path = (.error e, fs) := by
  rw [remove.eq_def]
  simp only [hg]
  split
  next r2 heq =>
    rw [hres]
  next heq =>
    rw [hr] at heq
    exact Option.noConfusion heq

theorem remove_walk {fs : Fs} {selfId : Nat} {path : Name}
    {parent : Option Nat} {ch : List (Name × Nat)} {node : Nat} {r : Name}
    (hg : getNode fs selfId = some (.dir parent ch))
    (hr : (split_path path).2 = some r)
    (hres : resolveComp selfId parent ch (split_path path).1 = .ok node) :
    remove fs selfId path = remove fs node r := by
  rw [remove.eq_def]
  simp only [hg]
  split
  next r2 heq =>
    rw [hr] at heq
    injection heq with heq
    rw [heq, hres]
  next heq =>
    rw [hr] at heq
    exact Option.noConfusion heq

theorem remove_term {fs : Fs} {selfId : Nat} {path : Name}
    {parent : Option Nat} {ch : List (Name × Nat)}
    (hg : getNode fs selfId = some (.dir parent ch))
    (hr : (split_path path).2 = none) :
    remove fs selfId path =
      if (split_path path).1 = [] ∨ (split_path path).1 = ['.']
          ∨ (split_path path).1 = ['.', '.'] then
        (.error .invalidInput, fs)
      else remove_node fs selfId (split_path path).1 := by
  rw [remove.eq_def]
  simp only [hg]
  split
  next r2 heq =>
    rw [hr] at heq
    exact Option.noConfusion heq
  next heq => rfl

theorem create_WF (fs : Fs) (selfId : Nat) (path : Name) (ty : VfsNodeType)
    (h : WF fs) : WF (create fs selfId path ty).2 := by
  induction selfId, path, ty using create.induct fs with
  | case1 selfId path ty hg => simp [create, hg, h]
  | case2 selfId path ty hg => simp [create, hg, h]
  | case3 selfId path ty parent ch hg r hr e hres =>
    rw [create_err hg hr hres]
    exact h
  | case4 selfId path ty parent ch hg r hr node hres ih =>
    rw [create_walk hg hr hres]
    exact ih
  | case5 selfId path ty parent ch hg hr htriv =>
    rw [create_term hg hr, if_pos htriv]
    exact h
  | case6 selfId path ty parent ch hg hr htriv =>
    rw [create_term hg hr, if_neg htriv]
    exact create_node_WF fs selfId (split_path path).1 ty h

theorem remove_WF (fs : Fs) (selfId : Nat) (path : Name)
    (h : WF fs) : WF (remove fs selfId path).2 := by
  induction selfId, path using remove.induct fs with
  | case1 selfId path hg => simp [remove, hg, h]
  | case2 selfId path hg => simp [remove, hg, h]
  | case3 selfId path parent ch hg r hr e hres =>
    rw [remove_err hg hr hres]
    exact h
  | case4 selfId path parent ch hg r hr node hres ih =>
    rw [remove_walk hg hr hres]
    exact ih
  | case5 selfId path parent ch hg hr htriv =>
    rw [remove_term hg hr, if_pos htriv]
    exact h
  | case6 selfId path parent ch hg hr htriv =>
    rw [remove_term hg hr, if_neg htriv]
    exact remove_node_WF fs selfId (split_path path).1 h

/-- One mutating call on the tree, as issued by a caller of the
capability interface. -/
inductive FsOp where
  | create (selfId : Nat) (path : Name) (ty : VfsNodeType)
  | remove (selfId : Nat) (path : Name)
  | rename (selfId : Nat) (oldPath newPath : Name)

/-- The heap after one operation (the returned error, if any, does not
matter for the state). -/
def applyOp (fs : Fs) : FsOp → Fs
  | .create selfId path ty => (create fs selfId path ty).2
  | .remove selfId path => (remove fs selfId path).2
  | .rename selfId oldPath newPath => (rename fs selfId oldPath newPath).2

/-- The heap after a sequence of operations. -/
def applyOps (fs : Fs) : List FsOp → Fs
  | [] => fs
  | op :: rest => applyOps (applyOp fs op) rest

theorem applyOp_WF (fs : Fs) (op : FsOp) (h : WF fs) : WF (applyOp fs op) := by
  cases op with
  | create selfId path ty => exact create_WF fs selfId path ty h
  | remove selfId path => exact remove_WF fs selfId path h
  | rename selfId oldPath newPath => exact rename_WF fs selfId oldPath newPath h

theorem applyOps_WF (fs : Fs) (ops : List FsOp) (h : WF fs) :
    WF (applyOps fs ops) := by
  induction ops generalizing fs with
  | nil => exact h
  | cons op rest ih => exact ih (applyOp fs op) (applyOp_WF fs op h)

theorem breakLastSlash_none_iff :
    ∀ {l : Name}, breakLastSlash l = none ↔ '/' ∉ l := by
  intro l
  induction l with
  | nil => simp [breakLastSlash]
  | cons c rest ih =>
    simp only [breakLastSlash]
    cases hb : breakLastSlash rest with
    | some pr =>
      obtain ⟨p, n⟩ := pr
      have hmem : '/' ∈ rest := by
        by_contra hc
        rw [← ih] at hc
        rw [hb] at hc
        exact Option.noConfusion hc
      simp [hmem]
    | none =>
      have hnot : '/' ∉ rest := ih.mp hb
      by_cases hc : c = '/'
      · simp [hc]
      · simp only [if_neg hc]
        constructor
        · intro _ hcontra
          rw [List.mem_cons] at hcontra
          rcases hcontra with h1 | h1
          · exact hc h1.symm
          · exact hnot h1
        · intro _
          trivial

theorem breakLastSlash_some :
    ∀ {l : Name} {a b : Name}, breakLastSlash l = some (a, b) →
      l = a ++ '/' :: b ∧ '/' ∉ b := by
  intro l
  induction l with
  | nil =>
    intro a b h
    exact Option.noConfusion h
  | cons c rest ih =>
    intro a b h
    simp only [breakLastSlash] at h
    cases hb : breakLastSlash rest with
    | some pr =>
      obtain ⟨p, n⟩ := pr
      rw [hb] at h
      injection h with h
      rw [Prod.mk.injEq] at h
      obtain ⟨h1, h2⟩ := h
      obtain ⟨hrest, hnot⟩ := ih hb
      constructor
      · rw [← h1, ← h2, hrest]
        simp
      · rw [← h2]
        exact hnot
    | none =>
      rw [hb] at h
      by_cases hc : c = '/'
      · rw [if_pos hc] at h
        injection h with h
        rw [Prod.mk.injEq] at h
        obtain ⟨h1, h2⟩ := h
        subst h1
        subst h2
        rw [hc]
        exact ⟨rfl, breakLastSlash_none_iff.mp hb⟩
      · rw [if_neg hc] at h
        exact Option.noConfusion h

/-- C9: split_parent_name strips leading slashes; with no slash left it
returns the current-directory parent and the whole remainder as leaf;
with a slash it returns everything before the last slash (the root
path when that is empty) as parent and everything after it as leaf; it
always returns Ok. -/
theorem C9_split_parent_name_spec (path : Name) :
    (∃ pr, split_parent_name path = .ok pr) ∧
    ('/' ∉ trimSlashes path →
      split_parent_name path = .ok (['.'], trimSlashes path)) ∧
    ('/' ∈ trimSlashes path →
      ∃ a b, trimSlashes path = a ++ '/' :: b ∧ '/' ∉ b ∧
        split_parent_name path = .ok (if a = [] then ['/'] else a, b)) := by
  refine ⟨?_, ?_, ?_⟩
  · cases hb : breakLastSlash (trimSlashes path) with
    | none => exact ⟨_, by rw [split_parent_name, hb]⟩
    | some pr =>
      obtain ⟨a, b⟩ := pr
      exact ⟨_, by rw [split_parent_name, hb]⟩
  · intro hmem
    rw [split_parent_name, breakLastSlash_none_iff.mpr hmem]
  · intro hmem
    cases hb : breakLastSlash (trimSlashes path) with
    | none => exact absurd hmem (breakLastSlash_none_iff.mp hb)
    | some pr =>
      obtain ⟨a, b⟩ := pr
      obtain ⟨heq, hnot⟩ := breakLastSlash_some hb
      exact ⟨a, b, heq, hnot, by rw [split_parent_name, hb]⟩

theorem rdLoop_ge2 :
    ∀ (s : Nat) (l : List VfsDirEntry) (pos : Nat), 2 ≤ pos →
      rdLoop l pos s = l.take s := by
  intro s
  induction s with
  | zero =>
    intro l pos _
    rfl
  | succ s ih =>
    intro l pos hpos
    rcases pos with _ | _ | p
    · omega
    · omega
    · simp only [rdLoop]
      cases l with
      | nil => rfl
      | cons e rest =>
        simp only [List.take]
        rw [ih rest (p + 3) (by omega)]

theorem rdLoop_one (l : List VfsDirEntry) (cap : Nat) :
    rdLoop l 1 cap = ((⟨['.', '.'], .dir⟩ : VfsDirEntry) :: l).take cap := by
  cases cap with
  | zero => rfl
  | succ c =>
    simp only [rdLoop, List.take]
    rw [rdLoop_ge2 c l 2 (by omega)]

theorem rdLoop_zero (l : List VfsDirEntry) (cap : Nat) :
    rdLoop l 0 cap =
      (((⟨['.'], .dir⟩ : VfsDirEntry) :: ⟨['.', '.'], .dir⟩ :: l)).take cap := by
  cases cap with
  | zero => rfl
  | succ c =>
    simp only [rdLoop, List.take]
    rw [rdLoop_one]

theorem read_dir_virtual (l : List VfsDirEntry) (start cap : Nat) :
    rdLoop (l.drop (max start 2 - 2)) start cap =
      (((⟨['.'], .dir⟩ : VfsDirEntry) :: ⟨['.', '.'], .dir⟩ :: l).drop start).take cap := by
  rcases start with _ | _ | k
  · rw [show (max 0 2 - 2 : Nat) = 0 by rfl, List.drop_zero, List.drop_zero, rdLoop_zero]
  · rw [show (max 1 2 - 2 : Nat) = 0 by rfl, List.drop_zero, rdLoop_one]
    simp only [List.drop_succ_cons, List.drop_zero]
  · have hm : max (k + 2) 2 - 2 = k := by omega
    rw [hm, rdLoop_ge2 cap (l.drop k) (k + 2) (by omega)]
    simp only [List.drop_succ_cons]

/-- C7: read_dir fills the output slots from position start of the
virtual sequence whose entries 0 and 1 are the synthesized dot and
double-dot directory entries followed by the children in table order,
and the count filled falls short of the slot count exactly when fewer
than cap entries remain from start. -/
theorem C7_read_dir_spec (fs : Fs) (selfId : Nat) (start cap : Nat)
    (parent : Option Nat) (ch : List (Name × Nat))
    (hg : getNode fs selfId = some (.dir parent ch)) :
    read_dir fs selfId start cap =
      some ((((⟨['.'], .dir⟩ : VfsDirEntry) ::
        ⟨['.', '.'], .dir⟩ :: dirEntsOf fs ch).drop start).take cap) ∧
    ∀ out, read_dir fs selfId start cap = some out →
      (out.length < cap ↔
        ((⟨['.'], .dir⟩ : VfsDirEntry) ::
          ⟨['.', '.'], .dir⟩ :: dirEntsOf fs ch).length - start < cap) := by
  have h1 : read_dir fs selfId start cap =
      some (rdLoop ((dirEntsOf fs ch).drop (max start 2 - 2)) start cap) := by
    simp [read_dir, hg]
  rw [h1, read_dir_virtual]
  refine ⟨rfl, ?_⟩
  intro out hout
  injection hout with hout
  rw [← hout]
  rw [List.length_take, List.length_drop]
  omega

theorem resolveComp_self {selfId : Nat} {parent : Option Nat}
    {ch : List (Name × Nat)} {n : Name} (h : n = [] ∨ n = ['.']) :
    resolveComp selfId parent ch n = .ok selfId := by
  simp only [resolveComp]
  rw [if_pos h]

theorem resolveComp_up_none {selfId : Nat} {ch : List (Name × Nat)} :
    resolveComp selfId none ch ['.', '.'] = .error .notFound := by
  simp [resolveComp]

theorem resolveComp_up_some {selfId p : Nat} {ch : List (Name × Nat)} :
    resolveComp selfId (some p) ch ['.', '.'] = .ok p := by
  simp [resolveComp]

theorem resolveComp_child {selfId : Nat} {parent : Option Nat}
    {ch : List (Name × Nat)} {n : Name}
    (h1 : n ≠ []) (h2 : n ≠ ['.']) (h3 : n ≠ ['.', '.']) :
    resolveComp selfId parent ch n =
      match lookupKey n ch with
      | none => .error .notFound
      | some c => .ok c := by
  simp only [resolveComp]
  rw [if_neg (by rw [not_or]; exact ⟨h1, h2⟩), if_neg h3]

/-- C6: lookup resolves the first path component to the node itself
for the empty name and the dot, to the parent for the double dot
(NotFound when there is none), and through the child table otherwise
(NotFound when absent); with a remainder it recurses into the resolved
node, and without one it returns it. -/
theorem C6_lookup_spec (fs : Fs) (selfId : Nat) (path : Name) (parent : Option Nat)
    (ch : List (Name × Nat)) (hg : getNode fs selfId = some (.dir parent ch)) :
    (((split_path path).1 = [] ∨ (split_path path).1 = ['.']) →
      ((split_path path).2 = none → lookup fs selfId path = .ok selfId) ∧
      (∀ r, (split_path path).2 = some r →
        lookup fs selfId path = lookup fs selfId r)) ∧
    ((split_path path).1 = ['.', '.'] →
      (parent = none → lookup fs selfId path = .error .notFound) ∧
      (∀ p, parent = some p →
        ((split_path path).2 = none → lookup fs selfId path = .ok p) ∧
        (∀ r, (split_path path).2 = some r →
          lookup fs selfId path = lookup fs p r))) ∧
    ((split_path path).1 ≠ [] → (split_path path).1 ≠ ['.'] →
      (split_path path).1 ≠ ['.', '.'] →
      (lookupKey (split_path path).1 ch = none →
        lookup fs selfId path = .error .notFound) ∧
      (∀ c, lookupKey (split_path path).1 ch = some c →
        ((split_path path).2 = none → lookup fs selfId path = .ok c) ∧
        (∀ r, (split_path path).2 = some r →
          lookup fs selfId path = lookup fs c r))) := by
  refine ⟨?_, ?_, ?_⟩
  · intro hn
    constructor
    · intro hr
      exact lookup_term hg (resolveComp_self hn) hr
    · intro r hr
      exact lookup_walk hg (resolveComp_self hn) hr
  · intro hn
    constructor
    · intro hp
      subst hp
      refine lookup_err hg ?_
      rw [hn]
      exact resolveComp_up_none
    · intro p hp
      subst hp
      constructor
      · intro hr
        refine lookup_term hg ?_ hr
        rw [hn]
        exact resolveComp_up_some
      · intro r hr
        refine lookup_walk hg ?_ hr
        rw [hn]
        exact resolveComp_up_some
  · intro h1 h2 h3
    constructor
    · intro hk
      refine lookup_err hg ?_
      rw [resolveComp_child h1 h2 h3, hk]
    · intro c hk
      constructor
      · intro hr
        refine lookup_term hg ?_ hr
        rw [resolveComp_child h1 h2 h3, hk]
      · intro r hr
        refine lookup_walk hg ?_ hr
        rw [resolveComp_child h1 h2 h3, hk]

/-- A small tree with a directory d containing a file x, used as a
concrete lookup example. -/
def fsL : Fs :=
  ⟨[(0, .dir none [(['d'], 1)]),
    (1, .dir (some 0) [(['x'], 2)]),
    (2, .file)], 3⟩

/-- Witness for C6: looking up "d/x" from the root resolves d through
the child table and recurses with remainder "x", which then resolves
to the file node. -/
theorem C6_witness :
    lookup fsL 0 ['d', '/', 'x'] = lookup fsL 1 ['x'] ∧
    lookup fsL 1 ['x'] = .ok 2 := by
  constructor
  · exact (((C6_lookup_spec fsL 0 ['d', '/', 'x'] none [(['d'], 1)] rfl).2.2
      (by decide) (by decide) (by decide)).2 1 rfl).2 ['x'] rfl
  · exact (((C6_lookup_spec fsL 1 ['x'] (some 0) [(['x'], 2)] rfl).2.2
      (by decide) (by decide) (by decide)).2 2 rfl).1 rfl

/-- C4: remove rejects a trivial terminal component (empty, dot,
double dot) with InvalidInput; otherwise it is NotFound for an absent
name, DirectoryNotEmpty with the state unchanged for a directory child
with a non-empty table, and success removing the entry for a file or
an empty directory child. -/
theorem C4_remove_spec (fs : Fs) (selfId : Nat) (path : Name)
    (parent : Option Nat) (ch : List (Name × Nat))
    (hg : getNode fs selfId = some (.dir parent ch))
    (hterm : (split_path path).2 = none) :
    (((split_path path).1 = [] ∨ (split_path path).1 = ['.']
        ∨ (split_path path).1 = ['.', '.']) →
      remove fs selfId path = (.error .invalidInput, fs)) ∧
    ((split_path path).1 ≠ [] → (split_path path).1 ≠ ['.'] →
      (split_path path).1 ≠ ['.', '.'] →
      (lookupKey (split_path path).1 ch = none →
        remove fs selfId path = (.error .notFound, fs)) ∧
      (∀ c p2 cch, lookupKey (split_path path).1 ch = some c →
        getNode fs c = some (.dir p2 cch) → cch ≠ [] →
        remove fs selfId path = (.error .directoryNotEmpty, fs)) ∧
      (∀ c p2, lookupKey (split_path path).1 ch = some c →
        getNode fs c = some (.dir p2 []) →
        remove fs selfId path =
          (.ok, setNode fs selfId (.dir parent (removeKey (split_path path).1 ch)))) ∧
      (∀ c, lookupKey (split_path path).1 ch = some c →
        getNode fs c = some .file →
        remove fs selfId path =
          (.ok, setNode fs selfId (.dir parent (removeKey (split_path path).1 ch))))) := by
  rw [remove_term hg hterm]
  constructor
  · intro htriv
    rw [if_pos htriv]
  · intro h1 h2 h3
    have hneg : ¬((split_path path).1 = [] ∨ (split_path path).1 = ['.']
        ∨ (split_path path).1 = ['.', '.']) := by
      rw [not_or, not_or]
      exact ⟨h1, h2, h3⟩
    rw [if_neg hneg]
    refine ⟨?_, ?_, ?_, ?_⟩
    · intro hk
      simp only [remove_node, hg, hk]
    · intro c p2 cch hk hgc hne
      simp only [remove_node, hg, hk, hgc, if_neg hne]
    · intro c p2 hk hgc
      simp [remove_node, hg, hk, hgc]
    · intro c hk hgc
      simp only [remove_node, hg, hk, hgc]

/-- Witness for C4 on the d/x tree: removing the dot is InvalidInput,
removing an absent name is NotFound, removing the non-empty directory
d is DirectoryNotEmpty leaving the state unchanged, and removing the
file x succeeds and deletes the entry. -/
theorem C4_witness :
    remove fsL 0 ['.'] = (.error .invalidInput, fsL) ∧
    remove fsL 0 ['m'] = (.error .notFound, fsL) ∧
    remove fsL 0 ['d'] = (.error .directoryNotEmpty, fsL) ∧
    remove fsL 1 ['x'] =
      (.ok, ⟨[(0, .dir none [(['d'], 1)]),
        (1, .dir (some 0) []), (2, .file)], 3⟩) := by
  refine ⟨?_, ?_, ?_, ?_⟩
  · exact (C4_remove_spec fsL 0 ['.'] none [(['d'], 1)] rfl rfl).1 (by decide)
  · exact ((C4_remove_spec fsL 0 ['m'] none [(['d'], 1)] rfl rfl).2
      (by decide) (by decide) (by decide)).1 rfl
  · exact ((C4_remove_spec fsL 0 ['d'] none [(['d'], 1)] rfl rfl).2
      (by decide) (by decide) (by decide)).2.1 1 (some 0) [(['x'], 2)]
      rfl rfl (by decide)
  · rw [((C4_remove_spec fsL 1 ['x'] (some 0) [(['x'], 2)] rfl rfl).2
      (by decide) (by decide) (by decide)).2.2.2 2 rfl rfl]
    rfl

/-- C5: create walks all but the last component without creating
missing intermediates (NotFound instead); at the final component a
trivial name is a no-op success, an occupied name is AlreadyExists, a
type other than file or directory is Unsupported, and otherwise a
fresh node of the requested type is allocated and inserted under the
name. -/
theorem C5_create_spec (fs : Fs) (selfId : Nat) (path : Name) (ty : VfsNodeType)
    (parent : Option Nat) (ch : List (Name × Nat))
    (hg : getNode fs selfId = some (.dir parent ch)) :
    (∀ r, (split_path path).2 = some r →
      (split_path path).1 ≠ [] → (split_path path).1 ≠ ['.'] →
      (split_path path).1 ≠ ['.', '.'] →
      lookupKey (split_path path).1 ch = none →
      create fs selfId path ty = (.error .notFound, fs)) ∧
    ((split_path path).2 = none →
      (((split_path path).1 = [] ∨ (split_path path).1 = ['.']
          ∨ (split_path path).1 = ['.', '.']) →
        create fs selfId path ty = (.ok, fs)) ∧
      ((split_path path).1 ≠ [] → (split_path path).1 ≠ ['.'] →
        (split_path path).1 ≠ ['.', '.'] →
        (∀ c, lookupKey (split_path path).1 ch = some c →
          create fs selfId path ty = (.error .alreadyExists, fs)) ∧
        (lookupKey (split_path path).1 ch = none →
          (ty ≠ .file → ty ≠ .dir →
            create fs selfId path ty = (.error .unsupported, fs)) ∧
          (ty = .file →
            create fs selfId path ty =
              (.ok, setNode (addNode fs .file) selfId
                (.dir parent (insertSorted (split_path path).1 fs.nextId ch)))) ∧
          (ty = .dir →
            create fs selfId path ty =
              (.ok, setNode (addNode fs (.dir (some selfId) [])) selfId
                (.dir parent (insertSorted (split_path path).1 fs.nextId ch))))))) := by
  constructor
  · intro r hr h1 h2 h3 hk
    refine create_err hg hr ?_
    rw [resolveComp_child h1 h2 h3, hk]
  · intro hterm
    rw [create_term hg hterm]
    constructor
    · intro htriv
      rw [if_pos htriv]
    · intro h1 h2 h3
      have hneg : ¬((split_path path).1 = [] ∨ (split_path path).1 = ['.']
          ∨ (split_path path).1 = ['.', '.']) := by
        rw [not_or, not_or]
        exact ⟨h1, h2, h3⟩
      rw [if_neg hneg]
      constructor
      · intro c hk
        simp only [create_node, hg, hk, Option.isSome_some, if_pos]
      · intro hk
        refine ⟨?_, ?_, ?_⟩
        · intro hf hd
          cases ty with
          | file => exact absurd rfl hf
          | dir => exact absurd rfl hd
          | symLink => simp [create_node, hg, hk]
          | charDevice => simp [create_node, hg, hk]
          | blockDevice => simp [create_node, hg, hk]
          | fifo => simp [create_node, hg, hk]
          | socket => simp [create_node, hg, hk]
        · intro hf
          subst hf
          simp [create_node, hg, hk]
        · intro hd
          subst hd
          simp [create_node, hg, hk]

/-- Witness for C5 on the d/x tree: a missing intermediate is
NotFound, a trivial final name is a no-op success, an occupied name is
AlreadyExists, an unsupported type is rejected, and creating d/y
allocates node 3 and inserts it after x. -/
theorem C5_witness :
    create fsL 0 ['m', '/', 'x'] .file = (.error .notFound, fsL) ∧
    create fsL 0 ['.'] .file = (.ok, fsL) ∧
    create fsL 0 ['d'] .file = (.error .alreadyExists, fsL) ∧
    create fsL 0 ['z'] .symLink = (.error .unsupported, fsL) ∧
    create fsL 1 ['y'] .file =
      (.ok, ⟨[(0, .dir none [(['d'], 1)]),
        (1, .dir (some 0) [(['x'], 2), (['y'], 3)]),
        (2, .file), (3, .file)], 4⟩) := by
  refine ⟨?_, ?_, ?_, ?_, ?_⟩
  · exact (C5_create_spec fsL 0 ['m', '/', 'x'] .file none [(['d'], 1)] rfl).1
      ['x'] rfl (by decide) (by decide) (by decide) rfl
  · exact ((C5_create_spec fsL 0 ['.'] .file none [(['d'], 1)] rfl).2 rfl).1
      (by decide)
  · exact (((C5_create_spec fsL 0 ['d'] .file none [(['d'], 1)] rfl).2 rfl).2
      (by decide) (by decide) (by decide)).1 1 rfl
  · exact ((((C5_create_spec fsL 0 ['z'] .symLink none [(['d'], 1)] rfl).2 rfl).2
      (by decide) (by decide) (by decide)).2 rfl).1 (by decide) (by decide)
  · rw [((((C5_create_spec fsL 1 ['y'] .file (some 0) [(['x'], 2)] rfl).2 rfl).2
      (by decide) (by decide) (by decide)).2 rfl).2.1 rfl]
    rfl

/-- A directory with children a, b and c over three files, used as a
concrete enumeration example. -/
def fsRD : Fs :=
  ⟨[(0, .dir none [(['a'], 1), (['b'], 2), (['c'], 3)]),
    (1, .file), (2, .file), (3, .file)], 4⟩

/-- Witness for C7: on a directory with children a, b and c, repeated
single-slot reads at increasing start indices return the dot entry,
the double-dot entry, a, b, c, then an empty fill. -/
theorem C7_witness :
    read_dir fsRD 0 0 1 = some [⟨['.'], .dir⟩] ∧
    read_dir fsRD 0 1 1 = some [⟨['.', '.'], .dir⟩] ∧
    read_dir fsRD 0 2 1 = some [⟨['a'], .file⟩] ∧
    read_dir fsRD 0 3 1 = some [⟨['b'], .file⟩] ∧
    read_dir fsRD 0 4 1 = some [⟨['c'], .file⟩] ∧
    read_dir fsRD 0 5 1 = some [] := by
  refine ⟨?_, ?_, ?_, ?_, ?_, ?_⟩ <;>
  · rw [(C7_read_dir_spec fsRD 0 _ 1 none
      [(['a'], 1), (['b'], 2), (['c'], 3)] rfl).1]
    rfl

theorem rename_eq_resolved {fs : Fs} {selfId : Nat} {oldPath newPath : Name}
    {rp : Option Nat} {rch : List (Name × Nat)} {opp onm npp nnm : Name}
    (hg : getNode fs selfId = some (.dir rp rch))
    (h1 : split_parent_name (renameNormOld oldPath) = .ok (opp, onm))
    (h2 : split_parent_name (renameNormNew newPath) = .ok (npp, nnm)) :
    rename fs selfId oldPath newPath = renameResolved fs selfId opp onm npp nnm := by
  simp only [rename, hg, h1, h2]

/-- C2: with both parent paths resolving to one and the same directory
node, rename performs the in-place key rename: NotFound when the old
name is absent, AlreadyExists when the new name is present, and
otherwise the binding moves from the old key to the new key with its
node value preserved and the table still sorted by name. -/
theorem C2_rename_same_parent (fs : Fs) (selfId : Nat) (oldPath newPath : Name)
    (rp : Option Nat) (rch : List (Name × Nat)) (opp onm npp nnm : Name)
    (p : Nat) (a : Option Nat) (ch : List (Name × Nat))
    (hWF : WF fs)
    (hg : getNode fs selfId = some (.dir rp rch))
    (h1 : split_parent_name (renameNormOld oldPath) = .ok (opp, onm))
    (h2 : split_parent_name (renameNormNew newPath) = .ok (npp, nnm))
    (hl1 : lookup fs selfId opp = .ok p)
    (hl2 : lookup fs selfId npp = .ok p)
    (hgp : getNode fs p = some (.dir a ch)) :
    (lookupKey onm ch = none →
      rename fs selfId oldPath newPath = (.error .notFound, fs)) ∧
    (∀ v w, lookupKey onm ch = some v → lookupKey nnm ch = some w →
      rename fs selfId oldPath newPath = (.error .alreadyExists, fs)) ∧
    (∀ v, lookupKey onm ch = some v → lookupKey nnm ch = none →
      rename fs selfId oldPath newPath =
        (.ok, setNode fs p (.dir a (insertSorted nnm v (removeKey onm ch)))) ∧
      lookupKey nnm (insertSorted nnm v (removeKey onm ch)) = some v ∧
      lookupKey onm (insertSorted nnm v (removeKey onm ch)) = none ∧
      tableSorted (insertSorted nnm v (removeKey onm ch))) := by
  rw [rename_eq_resolved hg h1 h2]
  have hch : tableSorted ch := tableSorted_of_getNode hWF hgp
  have hres : renameResolved fs selfId opp onm npp nnm = rename_node fs p onm nnm := by
    simp [renameResolved, hl1, hl2, hgp]
  rw [hres]
  refine ⟨?_, ?_, ?_⟩
  · intro hk
    simp [rename_node, hgp, hk]
  · intro v w hkv hkw
    simp [rename_node, hgp, hkv, hkw]
  · intro v hkv hknn
    have hne : onm ≠ nnm := by
      intro he
      rw [he, hknn] at hkv
      exact Option.noConfusion hkv
    refine ⟨?_, ?_, ?_, ?_⟩
    · simp [rename_node, hgp, hkv, hknn]
    · exact lookupKey_insertSorted_self nnm v (removeKey onm ch)
    · rw [lookupKey_insertSorted_other v (removeKey onm ch) hne]
      exact lookupKey_removeKey_self hch
    · exact tableSorted_insertSorted (tableSorted_removeKey hch)

/-- Two sibling directories d1 (containing file a) and d2 (containing
file b) under the root, for the rename examples. -/
def fsR : Fs :=
  ⟨[(0, .dir none [(['d', '1'], 1), (['d', '2'], 2)]),
    (1, .dir (some 0) [(['a'], 3)]),
    (2, .dir (some 0) [(['b'], 4)]),
    (3, .file), (4, .file)], 5⟩

/-- Witness for C2: renaming d1/a to d1/c inside the single parent d1
moves the binding of node 3 from key a to key c. -/
theorem C2_witness :
    rename fsR 0 ['d', '1', '/', 'a'] ['d', '1', '/', 'c'] =
      (.ok, ⟨[(0, .dir none [(['d', '1'], 1), (['d', '2'], 2)]),
        (1, .dir (some 0) [(['c'], 3)]),
        (2, .dir (some 0) [(['b'], 4)]),
        (3, .file), (4, .file)], 5⟩) ∧
    lookupKey ['c'] (insertSorted ['c'] 3 (removeKey ['a'] [(['a'], 3)])) = some 3 ∧
    lookupKey ['a'] (insertSorted ['c'] 3 (removeKey ['a'] [(['a'], 3)])) = none := by
  have h := (C2_rename_same_parent fsR 0 ['d', '1', '/', 'a'] ['d', '1', '/', 'c']
    none [(['d', '1'], 1), (['d', '2'], 2)] ['d', '1'] ['a'] ['d', '1'] ['c']
    1 (some 0) [(['a'], 3)]
    (by decide) rfl (by decide) (by decide)
    (by simp [lookup, getNode, lookupNode, split_path, trimSlashes, breakSlash,
      resolveComp, lookupKey, fsR])
    (by simp [lookup, getNode, lookupNode, split_path, trimSlashes, breakSlash,
      resolveComp, lookupKey, fsR])
    rfl).2.2 3 rfl rfl
  refine ⟨?_, h.2.1, h.2.2.1⟩
  rw [h.1]
  rfl

/-- C1: in a cross-directory rename whose source entry exists and
whose destination table already holds the new name, rename returns
AlreadyExists and the whole state is exactly as before the call: the
removed source entry has been reinserted, so neither table changed. -/
theorem C1_rename_cross_rollback (fs : Fs) (selfId : Nat) (oldPath newPath : Name)
    (rp : Option Nat) (rch : List (Name × Nat)) (opp onm npp nnm : Name)
    (p1 p2 v w : Nat) (a1 a2 : Option Nat) (ch1 ch2 : List (Name × Nat))
    (hWF : WF fs)
    (hg : getNode fs selfId = some (.dir rp rch))
    (h1 : split_parent_name (renameNormOld oldPath) = .ok (opp, onm))
    (h2 : split_parent_name (renameNormNew newPath) = .ok (npp, nnm))
    (hl1 : lookup fs selfId opp = .ok p1)
    (hgp1 : getNode fs p1 = some (.dir a1 ch1))
    (hl2 : lookup fs selfId npp = .ok p2)
    (hgp2 : getNode fs p2 = some (.dir a2 ch2))
    (hne : p1 ≠ p2)
    (hv : lookupKey onm ch1 = some v)
    (hw : lookupKey nnm ch2 = some w) :
    rename fs selfId oldPath newPath = (.error .alreadyExists, fs) := by
  rw [rename_eq_resolved hg h1 h2]
  have hch1 : tableSorted ch1 := tableSorted_of_getNode hWF hgp1
  have hstep : renameResolved fs selfId opp onm npp nnm =
      (.error .alreadyExists,
        setNode fs p1 (.dir a1 (insertSorted onm v (removeKey onm ch1)))) := by
    simp [renameResolved, hl1, hgp1, hl2, hgp2, hne, hv, hw]
  rw [hstep, insertSorted_removeKey_self hch1 hv, setNode_same fs p1 _ hgp1]

/-- Witness for C1: renaming d1/a onto the occupied name d2/b fails
with AlreadyExists and leaves the tree untouched. -/
theorem C1_witness :
    rename fsR 0 ['d', '1', '/', 'a'] ['d', '2', '/', 'b'] =
      (.error .alreadyExists, fsR) := by
  exact C1_rename_cross_rollback fsR 0 ['d', '1', '/', 'a'] ['d', '2', '/', 'b']
    none [(['d', '1'], 1), (['d', '2'], 2)] ['d', '1'] ['a'] ['d', '2'] ['b']
    1 2 3 4 (some 0) (some 0) [(['a'], 3)] [(['b'], 4)]
    (by decide) rfl (by decide) (by decide)
    (by simp [lookup, getNode, lookupNode, split_path, trimSlashes, breakSlash,
      resolveComp, lookupKey, fsR])
    rfl
    (by simp [lookup, getNode, lookupNode, split_path, trimSlashes, breakSlash,
      resolveComp, lookupKey, fsR])
    rfl (by decide) rfl rfl

/-- C10: a successful cross-directory rename moves the entry between
the two child tables but never rewrites the moved node itself: a moved
directory keeps its old weak parent reference to the source parent,
even though it is now reachable only through the destination table. -/
theorem C10_rename_stale_parent (fs : Fs) (selfId : Nat) (oldPath newPath : Name)
    (rp : Option Nat) (rch : List (Name × Nat)) (opp onm npp nnm : Name)
    (p1 p2 v : Nat) (a1 a2 : Option Nat) (ch1 ch2 chv : List (Name × Nat))
    (hWF : WF fs)
    (hg : getNode fs selfId = some (.dir rp rch))
    (h1 : split_parent_name (renameNormOld oldPath) = .ok (opp, onm))
    (h2 : split_parent_name (renameNormNew newPath) = .ok (npp, nnm))
    (hl1 : lookup fs selfId opp = .ok p1)
    (hgp1 : getNode fs p1 = some (.dir a1 ch1))
    (hl2 : lookup fs selfId npp = .ok p2)
    (hgp2 : getNode fs p2 = some (.dir a2 ch2))
    (hne : p1 ≠ p2)
    (hv : lookupKey onm ch1 = some v)
    (hnw : lookupKey nnm ch2 = none)
    (hgv : getNode fs v = some (.dir (some p1) chv))
    (hvp1 : v ≠ p1) (hvp2 : v ≠ p2) :
    (rename fs selfId oldPath newPath).1 = .ok ∧
    getNode (rename fs selfId oldPath newPath).2 v = some (.dir (some p1) chv) ∧
    getNode (rename fs selfId oldPath newPath).2 p1 =
      some (.dir a1 (removeKey onm ch1)) ∧
    getNode (rename fs selfId oldPath newPath).2 p2 =
      some (.dir a2 (insertSorted nnm v ch2)) ∧
    lookupKey onm (removeKey onm ch1) = none ∧
    lookupKey nnm (insertSorted nnm v ch2) = some v := by
  rw [rename_eq_resolved hg h1 h2]
  have hch1 : tableSorted ch1 := tableSorted_of_getNode hWF hgp1
  have hstep : renameResolved fs selfId opp onm npp nnm =
      (.ok, setNode (setNode fs p1 (.dir a1 (removeKey onm ch1)))
        p2 (.dir a2 (insertSorted nnm v ch2))) := by
    simp [renameResolved, hl1, hgp1, hl2, hgp2, hne, hv, hnw]
  rw [hstep]
  refine ⟨rfl, ?_, ?_, ?_, ?_, ?_⟩
  · rw [getNode_setNode_other _ p2 v _ hvp2, getNode_setNode_other _ p1 v _ hvp1]
    exact hgv
  · rw [getNode_setNode_other _ p2 p1 _ hne]
    exact getNode_setNode_self fs p1 _ _ hgp1
  · have hx : getNode (setNode fs p1 (.dir a1 (removeKey onm ch1))) p2 =
        some (.dir a2 ch2) := by
      rw [getNode_setNode_other _ p1 p2 _ (Ne.symm hne)]
      exact hgp2
    exact getNode_setNode_self _ p2 _ _ hx
  · exact lookupKey_removeKey_self hch1
  · exact lookupKey_insertSorted_self nnm v ch2

/-- Witness for C10: moving directory s from d1 into d2 as t succeeds,
and the moved node 3 still records d1 (node 1) as its parent. -/
theorem C10_witness :
    (rename ⟨[(0, .dir none [(['d', '1'], 1), (['d', '2'], 2)]),
        (1, .dir (some 0) [(['s'], 3)]),
        (2, .dir (some 0) []),
        (3, .dir (some 1) [])], 4⟩ 0 ['d', '1', '/', 's'] ['d', '2', '/', 't']).1
      = .ok ∧
    getNode (rename ⟨[(0, .dir none [(['d', '1'], 1), (['d', '2'], 2)]),
        (1, .dir (some 0) [(['s'], 3)]),
        (2, .dir (some 0) []),
        (3, .dir (some 1) [])], 4⟩ 0 ['d', '1', '/', 's'] ['d', '2', '/', 't']).2 3
      = some (.dir (some 1) []) := by
  have h := C10_rename_stale_parent
    ⟨[(0, .dir none [(['d', '1'], 1), (['d', '2'], 2)]),
      (1, .dir (some 0) [(['s'], 3)]),
      (2, .dir (some 0) []),
      (3, .dir (some 1) [])], 4⟩ 0 ['d', '1', '/', 's'] ['d', '2', '/', 't']
    none [(['d', '1'], 1), (['d', '2'], 2)] ['d', '1'] ['s'] ['d', '2'] ['t']
    1 2 3 (some 0) (some 0) [(['s'], 3)] [] []
    (by decide) rfl (by decide) (by decide)
    (by simp [lookup, getNode, lookupNode, split_path, trimSlashes, breakSlash,
      resolveComp, lookupKey])
    rfl
    (by simp [lookup, getNode, lookupNode, split_path, trimSlashes, breakSlash,
      resolveComp, lookupKey])
    rfl (by decide) rfl rfl rfl (by decide) (by decide)
  exact ⟨h.1, h.2.1⟩

theorem trimSlashes_eq_dropWhile (l : Name) :
    trimSlashes l = l.dropWhile (fun c => c = '/') := by
  induction l with
  | nil => rfl
  | cons c rest ih =>
    by_cases h : c = '/'
    · simp [trimSlashes, List.dropWhile, h, ih]
    · simp [trimSlashes, List.dropWhile, h]

/-- The normalization the specification ascribes to rename for both
paths: strip leading slashes and strip the tmp mount path. -/
def specRenameNorm (p : Name) : Name :=
  stripTmp (trimSlashes p)

/-- A tree whose root holds the directory tmp containing the file a,
exhibiting the asymmetric mount-path stripping of rename. -/
def fsT : Fs :=
  ⟨[(0, .dir none [(['t', 'm', 'p'], 1)]),
    (1, .dir (some 0) [(['a'], 2)]),
    (2, .file)], 3⟩

/-- Counterexample to C3: rename does not normalize the two paths in
the same way.  On the input "/tmp/a" the old-path normalization keeps
the mount component while the claimed normalization (applied by the
code to the new path only) removes it; consequently renaming /tmp/a to
/tmp/b resolves the two parents to different directories and moves the
file from the tmp directory into the root under the name b, instead of
performing a same-directory rename inside tmp. -/
theorem C3_counterexample :
    renameNormOld ['/', 't', 'm', 'p', '/', 'a'] ≠
      specRenameNorm ['/', 't', 'm', 'p', '/', 'a'] ∧
    renameNormOld ['/', 't', 'm', 'p', '/', 'a'] = ['t', 'm', 'p', '/', 'a'] ∧
    renameNormNew ['/', 't', 'm', 'p', '/', 'a'] = ['a'] ∧
    rename fsT 0 ['/', 't', 'm', 'p', '/', 'a'] ['/', 't', 'm', 'p', '/', 'b'] =
      (.ok, ⟨[(0, .dir none [(['b'], 2), (['t', 'm', 'p'], 1)]),
        (1, .dir (some 0) []), (2, .file)], 3⟩) := by
  refine ⟨by decide, by decide, by decide, ?_⟩
  simp [rename, renameResolved, rename_node, renameNormOld, renameNormNew,
    stripTmp, split_parent_name, breakLastSlash, trimSlashes, lookup, getNode,
    lookupNode, split_path, breakSlash, resolveComp, lookupKey, insertSorted,
    removeKey, setNode, updateNode, nameLt, fsT]

/-- C3 amended: rename strips leading slashes from both paths but
strips the mount path tmp only from the new path; it then resolves the
rename from the split of trimSlashes of the old path and the split of
stripTmp of trimSlashes of the new path. -/
theorem C3_amended_normalization (fs : Fs) (selfId : Nat)
    (oldPath newPath : Name) (rp : Option Nat) (rch : List (Name × Nat))
    (opp onm npp nnm : Name)
    (hg : getNode fs selfId = some (.dir rp rch))
    (h1 : split_parent_name (trimSlashes oldPath) = .ok (opp, onm))
    (h2 : split_parent_name (stripTmp (trimSlashes newPath)) = .ok (npp, nnm)) :
    rename fs selfId oldPath newPath = renameResolved fs selfId opp onm npp nnm ∧
    trimSlashes oldPath = oldPath.dropWhile (fun c => c = '/') ∧
    trimSlashes newPath = newPath.dropWhile (fun c => c = '/') ∧
    stripTmp (trimSlashes newPath) =
      (if (trimSlashes newPath).take 4 = ['t', 'm', 'p', '/']
        then (trimSlashes newPath).drop 4 else trimSlashes newPath) := by
  exact ⟨rename_eq_resolved hg h1 h2, trimSlashes_eq_dropWhile _,
    trimSlashes_eq_dropWhile _, rfl⟩

/-- Witness for the amended C3: on the tmp tree, renaming "/tmp/a" to
"/tmp/b" resolves the old path inside tmp but the new path at the
root. -/
theorem C3_witness :
    rename fsT 0 ['/', 't', 'm', 'p', '/', 'a'] ['/', 't', 'm', 'p', '/', 'b'] =
      renameResolved fsT 0 ['t', 'm', 'p'] ['a'] ['.'] ['b'] := by
  exact (C3_amended_normalization fsT 0 ['/', 't', 'm', 'p', '/', 'a']
    ['/', 't', 'm', 'p', '/', 'b'] none [(['t', 'm', 'p'], 1)]
    ['t', 'm', 'p'] ['a'] ['.'] ['b'] rfl (by decide) (by decide)).1

/-- How many entries of a child table carry a given name. -/
def entryCount (n : Name) (ch : List (Name × Nat)) : Nat :=
  (ch.filter fun e => e.1 = n).length

theorem entryCount_eq_zero {n : Name} {ch : List (Name × Nat)}
    (h : lookupKey n ch = none) : entryCount n ch = 0 := by
  induction ch with
  | nil => rfl
  | cons hd tl ih =>
    obtain ⟨k, v⟩ := hd
    simp only [lookupKey] at h
    by_cases hk : n = k
    · rw [if_pos hk] at h
      exact Option.noConfusion h
    · rw [if_neg hk] at h
      simp only [entryCount, List.filter]
      have : ¬((k, v).1 = n) := fun he => hk he.symm
      simp only [this, decide_eq_false]
      exact ih h

theorem entryCount_le_one {n : Name} {ch : List (Name × Nat)}
    (hs : tableSorted ch) : entryCount n ch ≤ 1 := by
  induction ch with
  | nil => exact Nat.zero_le 1
  | cons hd tl ih =>
    obtain ⟨k, v⟩ := hd
    rw [tableSorted, List.pairwise_cons] at hs
    by_cases hk : k = n
    · subst hk
      have hnone : lookupKey k tl = none := head_notMem_keys (by
        rw [tableSorted, List.pairwise_cons]
        exact hs)
      simp only [entryCount, List.filter, decide_eq_true_eq]
      have hz := entryCount_eq_zero hnone
      simp only [entryCount] at hz
      simp [hz]
    · simp only [entryCount, List.filter]
      have : ¬((k, v).1 = n) := hk
      simp only [this, decide_eq_false]
      exact ih hs.2

/-- C8: starting from a well-formed heap, any sequence of create,
remove and rename operations keeps the heap well formed, and in
particular every directory's child table binds each name at most
once. -/
theorem C8_uniqueness (fs : Fs) (ops : List FsOp) (h : WF fs) :
    WF (applyOps fs ops) ∧
    ∀ i parent ch, getNode (applyOps fs ops) i = some (.dir parent ch) →
      ∀ n : Name, entryCount n ch ≤ 1 := by
  have hWF := applyOps_WF fs ops h
  refine ⟨hWF, ?_⟩
  intro i parent ch hgc n
  exact entryCount_le_one (tableSorted_of_getNode hWF hgc)

/-- Witness for C8: the d/x tree is well formed, stays well formed
after renaming d/x to the root name y, and the resulting root table
binds y once. -/
theorem C8_witness :
    WF fsL ∧
    WF (applyOps fsL [.rename 0 ['d', '/', 'x'] ['y']]) ∧
    entryCount ['y'] [(['d'], 1), (['y'], 2)] ≤ 1 := by
  have h := C8_uniqueness fsL [.rename 0 ['d', '/', 'x'] ['y']] (by decide)
  refine ⟨by decide, h.1, ?_⟩
  refine h.2 0 none [(['d'], 1), (['y'], 2)] ?_ ['y']
  simp [applyOps, applyOp, rename, renameResolved, rename_node, renameNormOld,
    renameNormNew, stripTmp, split_parent_name, breakLastSlash, trimSlashes,
    lookup, getNode, lookupNode, split_path, breakSlash, resolveComp, lookupKey,
    insertSorted, removeKey, setNode, updateNode, nameLt, fsL]

/-- Witness for C9 at the concrete path "//x": no slash is left after
trimming, so the parent is the current directory and the leaf the
whole remainder. -/
theorem C9_witness :
    '/' ∉ trimSlashes ['/', '/', 'x'] ∧
    split_parent_name ['/', '/', 'x'] = .ok (['.'], ['x']) := by
  have h := (C9_split_parent_name_spec ['/', '/', 'x']).2.1 (by decide)
  exact ⟨by decide, by simpa [trimSlashes] using h⟩

end RamFs
